import Mathlib

/-!
Verification of the shared/weak smart-pointer pair of
`src/task1_weak_ptr/custom_weak_ptr.hpp` (`CustomSharedPtr<T>` and
`CustomWeakPtr<T>`).

The C++ code is shallowly embedded as follows.

* The payload type `T` is instantiated with `Int` (the repository only ever
  instantiates it with `int`).
* The heap is explicit: a list of payload cells and a list of counter blocks,
  `none` marking a freed cell.  `ref_count_` and `weak_count_` are allocated
  by the same constructor and always freed together
  (`delete ref_count_; delete weak_count_;`), so the two `std::atomic<int>`
  allocations are modelled as one counter block holding both integers.
* Both `CustomSharedPtr` and `CustomWeakPtr` consist of the three pointer
  fields `ptr_`, `ref_count_`, `weak_count_`; a handle is modelled as a pair
  of optional addresses (`none` = `nullptr`), the counter-block address
  standing for the `ref_count_`/`weak_count_` pair.
* Operations that can touch freed memory (or `delete` a freed cell) return
  `Option`: `none` is undefined behaviour, `some` a defined outcome.
* The sequential semantics below runs each member function atomically; the
  CAS retry loop of `lock()` under concurrent interference, and the
  multi-threaded benchmark scenario, are modelled separately by `lockAttempt`
  and by the `BenchStep` interleaving machine further down.
-/

namespace WeakPtrModel

/-- One counter block: the values of `*ref_count_` and `*weak_count_`
(`std::atomic<int>`, modelled as mathematical integers since the counters in
all reachable states stay far below `INT_MAX`). -/
structure Block where
  ref : Int
  weak : Int
deriving Repr, DecidableEq

/-- The explicit heap: payload cells and counter blocks, addressed by index;
`none` marks a freed cell. -/
structure Heap where
  payloads : List (Option Int)
  blocks : List (Option Block)
deriving Repr, DecidableEq

/-- The three pointer fields `ptr_`, `ref_count_`, `weak_count_` shared by
`CustomSharedPtr<T>` and `CustomWeakPtr<T>`; `cnt` addresses the counter
block standing for the always-co-allocated `ref_count_`/`weak_count_` pair. -/
structure Handle where
  ptr : Option Nat
  cnt : Option Nat
deriving Repr, DecidableEq

def emptyHeap : Heap := ⟨[], []⟩

def Heap.blockAt (h : Heap) (a : Nat) : Option Block :=
  h.blocks.getD a none

def Heap.payloadAt (h : Heap) (p : Nat) : Option Int :=
  h.payloads.getD p none

def Heap.setBlock (h : Heap) (a : Nat) (b : Option Block) : Heap :=
  { h with blocks := h.blocks.set a b }

def Heap.setPayload (h : Heap) (p : Nat) (v : Option Int) : Heap :=
  { h with payloads := h.payloads.set p v }

/-- Allocate a fresh counter block (the `new std::atomic<int>` pair of the
constructors); returns its address. -/
def Heap.allocBlock (h : Heap) (b : Block) : Nat × Heap :=
  (h.blocks.length, { h with blocks := h.blocks ++ [some b] })

/-- Allocate a fresh payload cell (the caller's `new T(v)`). -/
def Heap.allocPayload (h : Heap) (v : Int) : Nat × Heap :=
  (h.payloads.length, { h with payloads := h.payloads ++ [some v] })

/-- `CustomSharedPtr<T>(T* ptr = nullptr)` (lines 24-28): stores the raw
pointer and allocates a fresh counter block with `ref_count_ = 1`,
`weak_count_ = 0`.  `v = some x` is a call with `new T(x)`; `v = none` is the
default construction with `nullptr`, which still allocates the block. -/
def sharedNew (v : Option Int) (h : Heap) : Handle × Heap :=
  match v with
  | some x =>
    let (p, h1) := h.allocPayload x
    let (b, h2) := h1.allocBlock ⟨1, 0⟩
    (⟨some p, some b⟩, h2)
  | none =>
    let (b, h1) := h.allocBlock ⟨1, 0⟩
    (⟨none, some b⟩, h1)

/-- `CustomSharedPtr::~CustomSharedPtr` (lines 39-54): only if both `ptr_`
and `ref_count_` are non-null, decrement `*ref_count_`; when the decremented
value is 0, `delete ptr_`, and when additionally `weak_count_->load() == 0`,
free the counter block. -/
def sharedDtor (s : Handle) (h : Heap) : Option Heap :=
  match s.ptr, s.cnt with
  | some p, some a => do
    let blk ← h.blockAt a
    let count := blk.ref - 1
    let h1 := h.setBlock a (some ⟨count, blk.weak⟩)
    if count = 0 then do
      let _ ← h1.payloadAt p
      let h2 := h1.setPayload p none
      if blk.weak = 0 then pure (h2.setBlock a none) else pure h2
    else
      pure h1
  | _, _ => pure h

/-- `CustomSharedPtr` copy constructor (lines 56-64): copies the three
fields and, if `ref_count_` is non-null, increments `*ref_count_`. -/
def sharedCopyCtor (s : Handle) (h : Heap) : Option (Handle × Heap) :=
  match s.cnt with
  | none => some (⟨s.ptr, none⟩, h)
  | some a => do
    let blk ← h.blockAt a
    pure (⟨s.ptr, some a⟩, h.setBlock a (some ⟨blk.ref + 1, blk.weak⟩))

/-- The release half of `CustomSharedPtr::operator=` (lines 68-78): if
`ref_count_` is non-null, decrement it; on reaching 0, `delete ptr_`
(a no-op when `ptr_` is null) and, when `weak_count_->load() == 0`, free the
counter block. -/
def sharedAssignRelease (s : Handle) (h : Heap) : Option Heap :=
  match s.cnt with
  | none => pure h
  | some a => do
    let blk ← h.blockAt a
    let count := blk.ref - 1
    let h1 := h.setBlock a (some ⟨count, blk.weak⟩)
    if count = 0 then do
      let h2 ←
        match s.ptr with
        | none => pure h1
        | some p => do
          let _ ← h1.payloadAt p
          pure (h1.setPayload p none)
      if blk.weak = 0 then pure (h2.setBlock a none) else pure h2
    else
      pure h1

/-- `CustomSharedPtr::operator=` (lines 66-90).  The C++ guard
`this != &other` compares object identities, which the value-level model
cannot observe, so it is passed in as `self`. -/
def sharedAssign (self : Bool) (dst src : Handle) (h : Heap) :
    Option (Handle × Heap) :=
  if self then some (dst, h)
  else do
    let h1 ← sharedAssignRelease dst h
    match src.cnt with
    | none => pure (⟨src.ptr, none⟩, h1)
    | some a => do
      let blk ← h1.blockAt a
      pure (⟨src.ptr, some a⟩, h1.setBlock a (some ⟨blk.ref + 1, blk.weak⟩))

/-- `CustomSharedPtr` move constructor (lines 92-101): the new handle takes
the three fields, the source's fields are nulled; no counter is touched.
Returns (new handle, source after the move). -/
def sharedMoveCtor (s : Handle) : Handle × Handle :=
  (⟨s.ptr, s.cnt⟩, ⟨none, none⟩)

/-- `CustomSharedPtr` declares no move assignment operator (and having
user-declared copy operations and a destructor, none is implicitly
generated), so `owner = std::move(other)` binds the rvalue to the `const&`
parameter of the copy assignment: move-assignment of a Strong Owner IS copy
assignment, and the source object is left untouched.  Returns
(assigned handle, source after the operation, heap). -/
def sharedMoveAssign (dst src : Handle) (h : Heap) :
    Option (Handle × Handle × Heap) := do
  let (d, h') ← sharedAssign false dst src h
  pure (d, src, h')

/-- `use_count()` (lines 112-114 and 229-231, textually identical for both
classes): `ref_count_ != nullptr ? ref_count_->load() : 0`. -/
def use_count (s : Handle) (h : Heap) : Option Int :=
  match s.cnt with
  | none => some 0
  | some a => do
    let blk ← h.blockAt a
    pure blk.ref

/-- `CustomSharedPtr::expired` (lines 115-117): `use_count() == 0`;
`CustomWeakPtr::expired` (lines 225-227) computes the same value. -/
def expired (s : Handle) (h : Heap) : Option Bool :=
  (use_count s h).map (fun c => c == 0)

/-- `explicit operator bool()` (lines 119-121): `ptr_ != nullptr`. -/
def toBool (s : Handle) : Bool :=
  s.ptr.isSome

/-- `operator*` (lines 106-108): reads the payload; undefined on a null or
dangling `ptr_`. -/
def deref (s : Handle) (h : Heap) : Option Int := do
  let p ← s.ptr
  h.payloadAt p

/-- `CustomWeakPtr()` (lines 138-141): all three fields null. -/
def weakDefault : Handle := ⟨none, none⟩

/-- `CustomWeakPtr(const CustomSharedPtr&)` (lines 143-150): copies the
fields and, if `weak_count_` is non-null, increments `*weak_count_`. -/
def weakFromShared (s : Handle) (h : Heap) : Option (Handle × Heap) :=
  match s.cnt with
  | none => some (⟨s.ptr, none⟩, h)
  | some a => do
    let blk ← h.blockAt a
    pure (⟨s.ptr, some a⟩, h.setBlock a (some ⟨blk.ref, blk.weak + 1⟩))

/-- `CustomWeakPtr` copy constructor (lines 164-171): same effect as
construction from a shared pointer — copy the fields, increment
`*weak_count_`. -/
def weakCopyCtor (w : Handle) (h : Heap) : Option (Handle × Heap) :=
  weakFromShared w h

/-- `CustomWeakPtr` declares no move constructor (and none is implicitly
generated because it has a user-declared destructor and copy operations), so
`CustomWeakPtr w2(std::move(w1))` selects the copy constructor:
`weak_count_` is incremented and the source is left unchanged.  Returns
(new handle, source after the operation, heap). -/
def weakMoveCtor (w : Handle) (h : Heap) : Option (Handle × Handle × Heap) := do
  let (w2, h') ← weakCopyCtor w h
  pure (w2, w, h')

/-- `CustomWeakPtr::~CustomWeakPtr` (lines 152-161): if `weak_count_` is
non-null, decrement it; when the decremented value is 0 and
`ref_count_->load() == 0`, free the counter block. -/
def weakDtor (w : Handle) (h : Heap) : Option Heap :=
  match w.cnt with
  | none => pure h
  | some a => do
    let blk ← h.blockAt a
    let count := blk.weak - 1
    let h1 := h.setBlock a (some ⟨blk.ref, count⟩)
    if count = 0 ∧ blk.ref = 0 then pure (h1.setBlock a none) else pure h1

/-- The release half of `CustomWeakPtr::operator=` (lines 175-182): same
decrement-and-maybe-free as the weak destructor. -/
def weakAssignRelease (w : Handle) (h : Heap) : Option Heap :=
  weakDtor w h

/-- `CustomWeakPtr::operator=` (lines 173-193); `self` models the
`this != &other` identity check. -/
def weakAssign (self : Bool) (dst src : Handle) (h : Heap) :
    Option (Handle × Heap) :=
  if self then some (dst, h)
  else do
    let h1 ← weakAssignRelease dst h
    match src.cnt with
    | none => pure (⟨src.ptr, none⟩, h1)
    | some a => do
      let blk ← h1.blockAt a
      pure (⟨src.ptr, some a⟩, h1.setBlock a (some ⟨blk.ref, blk.weak + 1⟩))

/-- `CustomWeakPtr` declares no move assignment operator either (its
user-declared destructor and copy operations suppress the implicit one), so
`w = std::move(other)` binds the rvalue to the `const&` parameter of the
copy assignment: move-assignment of a Weak Observer IS copy assignment, and
the source object is left untouched.  Returns (assigned handle, source
after the operation, heap). -/
def weakMoveAssign (dst src : Handle) (h : Heap) :
    Option (Handle × Handle × Heap) := do
  let (d, h') ← weakAssign false dst src h
  pure (d, src, h')

/-- `CustomWeakPtr::lock()` (lines 204-223) under the sequential semantics:
with no interference between the initial load and the CAS, the first
`compare_exchange_weak` succeeds whenever the loaded value is positive.  A
null `ref_count_`/`weak_count_` or a non-positive count yields
`CustomSharedPtr<T>()` (which allocates a fresh counter block).  The CAS
loop under interference is modelled by `lockAttempt` below. -/
def lock (w : Handle) (h : Heap) : Option (Handle × Heap) :=
  match w.cnt with
  | none => some (sharedNew none h)
  | some a => do
    let blk ← h.blockAt a
    if 0 < blk.ref then
      pure (⟨w.ptr, some a⟩, h.setBlock a (some ⟨blk.ref + 1, blk.weak⟩))
    else
      pure (sharedNew none h)

/-!
The CAS retry loop of `lock()` (lines 210-219) under concurrent interference.
Other threads may change `*ref_count_` between this thread's atomic accesses;
a schedule records, for each prospective `compare_exchange_weak` call, the
counter's value at that instant, whether the weak CAS fails spuriously, and
the value the subsequent `ref_count_->load()` returns after a failed CAS.
-/

/-- One prospective CAS iteration of the `lock()` loop under interference. -/
structure CasStep where
  atCas : Int
  spurious : Bool
  reload : Int
deriving Repr, DecidableEq

/-- Outcome of one `lock()` CAS loop. -/
inductive LockOutcome where
  /-- the CAS succeeded, writing `new` over `old` -/
  | locked (old new : Int)
  /-- the guard `expected > 0` failed: the empty shared pointer is returned -/
  | failed
  /-- the schedule ran out with the loop still spinning -/
  | spin
deriving Repr, DecidableEq

/-- The `lock()` retry loop run against an interference schedule, also
returning the list of (old, new) writes the loop performed on
`ref_count_`.  A CAS succeeds exactly when the counter still holds
`expected` and the weak CAS does not fail spuriously; a failed CAS is
followed by `expected = ref_count_->load()`, modelled by `st.reload`. -/
def lockAttempt (expected : Int) (sched : List CasStep) :
    LockOutcome × List (Int × Int) :=
  if expected ≤ 0 then (.failed, [])
  else
    match sched with
    | [] => (.spin, [])
    | st :: rest =>
      if st.atCas = expected ∧ ¬ st.spurious then
        (.locked expected (expected + 1), [(expected, expected + 1)])
      else
        lockAttempt st.reload rest

/-!
A sequential machine over the Strong Owner operations
(construct-from-raw-pointer, copy-construct, move-construct, destroy), used
for the trace-quantified claims.  Handles live in numbered slots; a
destroyed slot holds `none`.
-/

/-- One Strong Owner operation of a trace. -/
inductive Op where
  /-- `CustomSharedPtr<int> s(new int(v))` -/
  | construct (v : Int)
  /-- copy-construct a new handle from slot `src` -/
  | copy (src : Nat)
  /-- move-construct a new handle from slot `src` -/
  | move (src : Nat)
  /-- run the destructor of slot `i` -/
  | drop (i : Nat)
deriving Repr, DecidableEq

/-- Machine state: the heap plus the handle slots. -/
structure MState where
  heap : Heap
  handles : List (Option Handle)
deriving Repr, DecidableEq

def initState : MState := ⟨emptyHeap, []⟩

def execOp (s : MState) : Op → Option MState
  | .construct v =>
    let (hd, h) := sharedNew (some v) s.heap
    some ⟨h, s.handles ++ [some hd]⟩
  | .copy src => do
    let hd ← s.handles.getD src none
    let (hd2, h) ← sharedCopyCtor hd s.heap
    pure ⟨h, s.handles ++ [some hd2]⟩
  | .move src => do
    let hd ← s.handles.getD src none
    let (hd2, hd') := sharedMoveCtor hd
    pure ⟨s.heap, (s.handles.set src (some hd')) ++ [some hd2]⟩
  | .drop i => do
    let hd ← s.handles.getD i none
    let h ← sharedDtor hd s.heap
    pure ⟨h, s.handles.set i none⟩

def run (ops : List Op) (s : MState) : Option MState :=
  ops.foldlM execOp s

/-- Number of live Strong Owner handles aliasing counter block `a`. -/
def ownersAt (hs : List (Option Handle)) (a : Nat) : Nat :=
  hs.countP fun o =>
    match o with
    | some hd => hd.cnt == some a
    | none => false

/-- The machine invariant: every live handle that references a counter block
has a non-null payload pointer, and its block is alive with `weak = 0` and a
reference count equal to the number of live handles aliasing the block. -/
def Inv (s : MState) : Prop :=
  ∀ i hd, s.handles.getD i none = some hd → ∀ a, hd.cnt = some a →
    hd.ptr ≠ none ∧
    ∃ blk, s.heap.blockAt a = some blk ∧ blk.weak = 0 ∧
      blk.ref = (ownersAt s.handles a : Int)

/-!
The multi-threaded benchmark scenario (`tests/test_task1.cpp`,
`test_multithread_lock`): one Strong Owner is held throughout while `T`
threads each run `I` iterations of `lock()` followed by destruction of the
temporary.  Each iteration performs exactly two writes to `ref_count_`: the
successful CAS of `lock()` (an increment, enabled only from a positive
value) and the decrement of the temporary's destructor; failed CAS attempts
and plain loads do not change the counter and are omitted as stuttering.
The machine interleaves the threads' remaining event lists arbitrarily.
-/

/-- One atomic write to `ref_count_` performed by a benchmark thread. -/
inductive Ev where
  /-- the successful CAS of `lock()`: `ref_count_` goes from a positive `n` to `n + 1` -/
  | inc
  /-- the decrement in the temporary owner's destructor -/
  | dec
deriving Repr, DecidableEq

/-- The event list of one benchmark thread running `I` iterations. -/
def threadEvents (I : Nat) : List Ev :=
  (List.replicate I [Ev.inc, Ev.dec]).flatten

/-- One interleaving step: some thread `t` performs its next counter write.
The CAS increment is only enabled from a positive counter value (the loop
guard `expected > 0` gates the CAS). -/
inductive BenchStep : Int × List (List Ev) → Int × List (List Ev) → Prop
  | inc (c : Int) (rem : List (List Ev)) (t : Nat) (rest : List Ev)
      (hget : rem.getD t [] = Ev.inc :: rest) (hpos : 0 < c) :
      BenchStep (c, rem) (c + 1, rem.set t rest)
  | dec (c : Int) (rem : List (List Ev)) (t : Nat) (rest : List Ev)
      (hget : rem.getD t [] = Ev.dec :: rest) :
      BenchStep (c, rem) (c - 1, rem.set t rest)

/-- Reachability by interleaving steps. -/
inductive BenchReach : Int × List (List Ev) → Int × List (List Ev) → Prop
  | refl (s : Int × List (List Ev)) : BenchReach s s
  | tail {s t u} : BenchReach s t → BenchStep t u → BenchReach s u

/-- Number of threads currently holding a locked temporary (their remaining
event list has odd length: the matching decrement is still outstanding). -/
def outstanding (rem : List (List Ev)) : Nat :=
  rem.countP fun l => l.length % 2 == 1

/-- Well-formed remaining event list of one thread: a (possibly empty) run
of complete iterations, optionally preceded by the pending decrement of an
iteration whose increment already happened. -/
inductive WfTail : List Ev → Prop
  | nil : WfTail []
  | iter {l : List Ev} : WfTail l → l.length % 2 = 0 → WfTail (Ev.inc :: Ev.dec :: l)
  | pend {l : List Ev} : WfTail l → l.length % 2 = 0 → WfTail (Ev.dec :: l)

/-- The benchmark invariant: every thread's remaining events are
well-formed and the counter equals one (the original owner) plus the number
of outstanding locked temporaries. -/
def BenchInv (s : Int × List (List Ev)) : Prop :=
  (∀ l ∈ s.2, WfTail l) ∧ s.1 = 1 + (outstanding s.2 : Int)

/-! ### List and heap access lemmas -/

theorem getD_none_iff {α : Type _} {l : List (Option α)} {i : Nat} {x : α} :
    l.getD i none = some x ↔ ∃ h : i < l.length, l[i] = some x := by
  rw [List.getD_eq_getElem?_getD]
  constructor
  · intro h
    cases hl : l[i]? with
    | none => rw [hl] at h; exact absurd h (by simp)
    | some o =>
      rw [hl] at h
      simp only [Option.getD_some] at h
      subst h
      exact List.getElem?_eq_some.mp hl
  · rintro ⟨hlen, hx⟩
    rw [List.getElem?_eq_getElem hlen, hx]
    rfl

theorem getD_concat_cases {α : Type _} {l : List (Option α)} {x : Option α}
    {i : Nat} {hd : α} (h : (l ++ [x]).getD i none = some hd) :
    (i < l.length ∧ l.getD i none = some hd) ∨ (i = l.length ∧ x = some hd) := by
  rcases getD_none_iff.mp h with ⟨hlen, hx⟩
  rcases Nat.lt_or_ge i l.length with hi | hi
  · left
    refine ⟨hi, getD_none_iff.mpr ⟨hi, ?_⟩⟩
    rw [← hx, List.getElem_append_left hi]
  · right
    have hlen' : i < l.length + 1 := by simpa using hlen
    have : i = l.length := by omega
    subst this
    refine ⟨rfl, ?_⟩
    rw [← hx, List.getElem_append_right (by omega)]
    simp

theorem getD_set_ne {α : Type _} {l : List (Option α)} {i j : Nat}
    {y : Option α} (h : i ≠ j) :
    (l.set i y).getD j none = l.getD j none := by
  rw [List.getD_eq_getElem?_getD, List.getD_eq_getElem?_getD,
    List.getElem?_set_ne h]

theorem getD_set_self {α : Type _} {l : List (Option α)} {i : Nat}
    {y : Option α} (h : i < l.length) :
    (l.set i y).getD i none = y := by
  rw [List.getD_eq_getElem?_getD, List.getElem?_set_self h]
  rfl

theorem getD_append_lt {α : Type _} {l l' : List (Option α)} {i : Nat}
    (h : i < l.length) :
    (l ++ l').getD i none = l.getD i none := by
  rw [List.getD_eq_getElem?_getD, List.getD_eq_getElem?_getD,
    List.getElem?_append, if_pos h]

theorem getD_concat_self {α : Type _} {l : List (Option α)} {x : Option α} :
    (l ++ [x]).getD l.length none = x := by
  rw [List.getD_eq_getElem?_getD, List.getElem?_concat_length]
  rfl

theorem Heap.blockAt_lt {h : Heap} {a : Nat} {blk : Block}
    (hb : h.blockAt a = some blk) : a < h.blocks.length :=
  (getD_none_iff.mp hb).1

theorem Heap.blockAt_setBlock_self {h : Heap} {a : Nat} {b : Option Block}
    (ha : a < h.blocks.length) : (h.setBlock a b).blockAt a = b :=
  getD_set_self ha

theorem Heap.blockAt_setBlock_ne {h : Heap} {a a' : Nat} {b : Option Block}
    (hne : a ≠ a') : (h.setBlock a b).blockAt a' = h.blockAt a' :=
  getD_set_ne hne

theorem Heap.blockAt_setPayload {h : Heap} {p : Nat} {v : Option Int}
    {a : Nat} : (h.setPayload p v).blockAt a = h.blockAt a := rfl

theorem Heap.payloadAt_setBlock {h : Heap} {a : Nat} {b : Option Block}
    {p : Nat} : (h.setBlock a b).payloadAt p = h.payloadAt p := rfl

/-! ### Counting lemmas for `ownersAt` -/

/-- The `countP` predicate of `ownersAt`, spelled out. -/
def ownerPred (a : Nat) : Option Handle → Bool := fun o =>
  match o with
  | some hd => hd.cnt == some a
  | none => false

theorem ownersAt_eq_countP (hs : List (Option Handle)) (a : Nat) :
    ownersAt hs a = hs.countP (ownerPred a) := rfl

theorem ownersAt_append (hs : List (Option Handle)) (x : Option Handle)
    (a : Nat) :
    ownersAt (hs ++ [x]) a =
      ownersAt hs a + (if ownerPred a x then 1 else 0) := by
  rw [ownersAt_eq_countP, ownersAt_eq_countP, List.countP_append]
  simp [List.countP_cons]

theorem ownersAt_set (hs : List (Option Handle)) (i : Nat) (x : Option Handle)
    (a : Nat) (h : i < hs.length) :
    ownersAt (hs.set i x) a =
      ownersAt hs a - (if ownerPred a hs[i] then 1 else 0) +
        (if ownerPred a x then 1 else 0) := by
  rw [ownersAt_eq_countP, ownersAt_eq_countP, List.countP_set _ _ _ _ h]

theorem ownersAt_pos {hs : List (Option Handle)} {i : Nat} {hd : Handle}
    {a : Nat} (h : hs.getD i none = some hd) (ha : hd.cnt = some a) :
    0 < ownersAt hs a := by
  rcases getD_none_iff.mp h with ⟨hlen, hx⟩
  rw [ownersAt_eq_countP, List.countP_pos_iff]
  refine ⟨some hd, ?_, ?_⟩
  · rw [← hx]; exact List.getElem_mem hlen
  · simp [ownerPred, ha]

theorem ownerPred_of_cnt {d : Handle} {a : Nat} (h : d.cnt = some a) :
    ownerPred a (some d) = true := by simp [ownerPred, h]

theorem ownerPred_of_ne {d : Handle} {a a' : Nat} (h : d.cnt = some a')
    (hne : a' ≠ a) : ownerPred a (some d) = false := by
  simp [ownerPred, h, hne]

theorem ownerPred_none_cnt {d : Handle} {a : Nat} (h : d.cnt = none) :
    ownerPred a (some d) = false := by simp [ownerPred, h]

/-! ### Preservation of the machine invariant -/

/-- No live handle references a block at or beyond the end of the block
list (blocks referenced by handles are alive, hence in range). -/
theorem ownersAt_of_fresh {heap : Heap} {hs : List (Option Handle)}
    (hinv : Inv ⟨heap, hs⟩) {b : Nat} (hb : heap.blocks.length ≤ b) :
    ownersAt hs b = 0 := by
  rw [ownersAt_eq_countP, List.countP_eq_zero]
  rintro o ho
  cases o with
  | none => simp [ownerPred]
  | some hd' =>
    rcases List.getElem_of_mem ho with ⟨j, hj, hje⟩
    intro hpred
    have hcnt' : hd'.cnt = some b := by
      simpa [ownerPred] using hpred
    obtain ⟨_, blk, hblk, _, _⟩ :=
      hinv j hd' (getD_none_iff.mpr ⟨hj, hje⟩) b hcnt'
    have hlt : b < heap.blocks.length :=
      Heap.blockAt_lt (show heap.blockAt b = some blk from hblk)
    omega

theorem inv_construct {heap : Heap} {hs : List (Option Handle)} {v : Int}
    (hinv : Inv ⟨heap, hs⟩) :
    Inv ⟨⟨heap.payloads ++ [some v], heap.blocks ++ [some ⟨1, 0⟩]⟩,
      hs ++ [some ⟨some heap.payloads.length, some heap.blocks.length⟩]⟩ := by
  intro i hd hget a hcnt
  rcases getD_concat_cases hget with ⟨hi, hold⟩ | ⟨hi, hx⟩
  · obtain ⟨hptr, blk, hblk, hweak, href⟩ := hinv i hd hold a hcnt
    have halt : a < heap.blocks.length := Heap.blockAt_lt hblk
    refine ⟨hptr, blk, ?_, hweak, ?_⟩
    · show (heap.blocks ++ [some (⟨1, 0⟩ : Block)]).getD a none = some blk
      rw [getD_append_lt halt]; exact hblk
    · rw [ownersAt_append,
        ownerPred_of_ne (d := ⟨some heap.payloads.length,
          some heap.blocks.length⟩) rfl (by omega)]
      simpa using href
  · cases hx
    injection hcnt with hB
    subst hB
    refine ⟨by simp, (⟨1, 0⟩ : Block), ?_, rfl, ?_⟩
    · exact getD_concat_self
    · rw [ownersAt_append, ownerPred_of_cnt rfl,
        ownersAt_of_fresh hinv (Nat.le_refl _)]
      simp

/-- Appending a handle with a null counter pointer preserves the invariant. -/
theorem inv_append_none {heap : Heap} {hs : List (Option Handle)}
    (hinv : Inv ⟨heap, hs⟩) {p : Option Nat} :
    Inv ⟨heap, hs ++ [some ⟨p, none⟩]⟩ := by
  intro i hd hget a hcnt
  rcases getD_concat_cases hget with ⟨hi, hold⟩ | ⟨hi, hx⟩
  · obtain ⟨hptr, blk, hblk, hweak, href⟩ := hinv i hd hold a hcnt
    refine ⟨hptr, blk, hblk, hweak, ?_⟩
    rw [ownersAt_append, ownerPred_none_cnt (d := ⟨p, none⟩) rfl]
    simpa using href
  · cases hx
    cases hcnt

theorem ownersAt_append_hit {hs : List (Option Handle)} {x : Option Handle}
    {a : Nat} (hx : ownerPred a x = true) :
    ownersAt (hs ++ [x]) a = ownersAt hs a + 1 := by
  rw [ownersAt_append, hx]; simp

theorem ownersAt_append_miss {hs : List (Option Handle)} {x : Option Handle}
    {a : Nat} (hx : ownerPred a x = false) :
    ownersAt (hs ++ [x]) a = ownersAt hs a := by
  rw [ownersAt_append, hx]; simp

theorem inv_copy_some {heap : Heap} {hs : List (Option Handle)} {src : Nat}
    {hd0 : Handle} {a0 : Nat} {blk0 : Block}
    (hinv : Inv ⟨heap, hs⟩) (hsrc : hs.getD src none = some hd0)
    (hcnt0 : hd0.cnt = some a0) (hblk0 : heap.blockAt a0 = some blk0) :
    Inv ⟨heap.setBlock a0 (some ⟨blk0.ref + 1, blk0.weak⟩),
      hs ++ [some ⟨hd0.ptr, some a0⟩]⟩ := by
  obtain ⟨hptr0, blk0', hblk0', hweak0, href0⟩ := hinv src hd0 hsrc a0 hcnt0
  have hbeq : blk0' = blk0 := Option.some.inj (hblk0'.symm.trans hblk0)
  have hweak0' : blk0.weak = 0 := hbeq ▸ hweak0
  have href0' : blk0.ref = (ownersAt hs a0 : Int) := hbeq ▸ href0
  have ha0lt : a0 < heap.blocks.length := Heap.blockAt_lt hblk0
  intro i hd hget a hcnt
  rcases getD_concat_cases hget with ⟨hi, hold⟩ | ⟨hi, hx⟩
  · obtain ⟨hptr, blk, hblk, hweak, href⟩ := hinv i hd hold a hcnt
    by_cases hae : a = a0
    · subst hae
      refine ⟨hptr, ⟨blk0.ref + 1, blk0.weak⟩, ?_, hweak0', ?_⟩
      · exact Heap.blockAt_setBlock_self ha0lt
      · rw [ownersAt_append_hit (ownerPred_of_cnt (d := ⟨hd0.ptr, some a⟩) rfl)]
        push_cast
        omega
    · refine ⟨hptr, blk, ?_, hweak, ?_⟩
      · rw [Heap.blockAt_setBlock_ne (fun h => hae h.symm)]
        exact hblk
      · rw [ownersAt_append_miss
          (ownerPred_of_ne (d := ⟨hd0.ptr, some a0⟩) rfl (fun h => hae h.symm))]
        exact href
  · cases hx
    injection hcnt with hB
    subst hB
    refine ⟨hptr0, ⟨blk0.ref + 1, blk0.weak⟩, ?_, hweak0', ?_⟩
    · exact Heap.blockAt_setBlock_self ha0lt
    · rw [ownersAt_append_hit (ownerPred_of_cnt (d := ⟨hd0.ptr, some a0⟩) rfl)]
      push_cast
      omega

theorem ownerPred_none (a : Nat) : ownerPred a none = false := rfl

theorem ownerPred_false_of_ne {d : Handle} {a : Nat}
    (h : d.cnt ≠ some a) : ownerPred a (some d) = false := by
  cases hc : d.cnt with
  | none => exact ownerPred_none_cnt hc
  | some b => exact ownerPred_of_ne hc (fun hb => h (by rw [hc, hb]))

/-- Moving a handle (nulling the source slot, appending the destination with
the same fields) does not change any block's owner count. -/
theorem ownersAt_move_eq {hs : List (Option Handle)} {src : Nat} {hd0 : Handle}
    (hsrc : hs.getD src none = some hd0) (a : Nat) :
    ownersAt ((hs.set src (some ⟨none, none⟩)) ++ [some ⟨hd0.ptr, hd0.cnt⟩]) a
      = ownersAt hs a := by
  rcases getD_none_iff.mp hsrc with ⟨hlen, hx⟩
  rw [ownersAt_append, ownersAt_set _ _ _ _ hlen, hx]
  by_cases hcnt : hd0.cnt = some a
  · have hpos := ownersAt_pos hsrc hcnt
    rw [ownerPred_of_cnt hcnt, ownerPred_none_cnt (d := ⟨none, none⟩) rfl]
    simp
    omega
  · rw [ownerPred_false_of_ne hcnt,
      ownerPred_none_cnt (d := ⟨none, none⟩) rfl]
    simp

theorem inv_move {heap : Heap} {hs : List (Option Handle)} {src : Nat}
    {hd0 : Handle} (hinv : Inv ⟨heap, hs⟩)
    (hsrc : hs.getD src none = some hd0) :
    Inv ⟨heap, (hs.set src (some ⟨none, none⟩)) ++ [some ⟨hd0.ptr, hd0.cnt⟩]⟩ := by
  have hlen : src < hs.length := (getD_none_iff.mp hsrc).1
  intro i hd hget a hcnt
  rcases getD_concat_cases hget with ⟨hi, hold⟩ | ⟨hi, hx⟩
  · by_cases hisrc : i = src
    · subst hisrc
      rw [getD_set_self hlen] at hold
      cases hold
      exact absurd hcnt (by simp)
    · rw [getD_set_ne (fun h => hisrc h.symm)] at hold
      obtain ⟨hptr, blk, hblk, hweak, href⟩ := hinv i hd hold a hcnt
      exact ⟨hptr, blk, hblk, hweak, by
        rw [ownersAt_move_eq hsrc]; exact href⟩
  · cases hx
    obtain ⟨hptr, blk, hblk, hweak, href⟩ := hinv src hd0 hsrc a hcnt
    exact ⟨hptr, blk, hblk, hweak, by
      rw [ownersAt_move_eq hsrc]; exact href⟩

/-- Dropping a handle whose counter pointer is null (its destructor is a
no-op) preserves the invariant. -/
theorem inv_drop_noop {heap : Heap} {hs : List (Option Handle)} {i0 : Nat}
    {hd0 : Handle} (hinv : Inv ⟨heap, hs⟩)
    (hsrc : hs.getD i0 none = some hd0) (hcnt0 : hd0.cnt = none) :
    Inv ⟨heap, hs.set i0 none⟩ := by
  rcases getD_none_iff.mp hsrc with ⟨hlen, hx0⟩
  intro j hd hget a hcnt
  have hji : j ≠ i0 := by
    intro h; subst h; rw [getD_set_self hlen] at hget; cases hget
  rw [getD_set_ne (fun h => hji h.symm)] at hget
  obtain ⟨hptr, blk, hblk, hweak, href⟩ := hinv j hd hget a hcnt
  refine ⟨hptr, blk, hblk, hweak, ?_⟩
  rw [ownersAt_set _ _ _ _ hlen, hx0, ownerPred_none_cnt hcnt0,
    ownerPred_none]
  simpa using href

/-- Dropping one of several owners (decrement without reaching zero)
preserves the invariant. -/
theorem inv_drop_keep {heap : Heap} {hs : List (Option Handle)} {i0 : Nat}
    {hd0 : Handle} {a0 : Nat} {blk0 : Block} (hinv : Inv ⟨heap, hs⟩)
    (hsrc : hs.getD i0 none = some hd0) (hcnt0 : hd0.cnt = some a0)
    (hblk0 : heap.blockAt a0 = some blk0) (hne : blk0.ref - 1 ≠ 0) :
    Inv ⟨heap.setBlock a0 (some ⟨blk0.ref - 1, blk0.weak⟩), hs.set i0 none⟩ := by
  rcases getD_none_iff.mp hsrc with ⟨hlen, hx0⟩
  obtain ⟨hptr0, blk0', hblk0', hweak0, href0⟩ := hinv i0 hd0 hsrc a0 hcnt0
  have hbeq : blk0' = blk0 := Option.some.inj (hblk0'.symm.trans hblk0)
  have hweak0' : blk0.weak = 0 := hbeq ▸ hweak0
  have href0' : blk0.ref = (ownersAt hs a0 : Int) := hbeq ▸ href0
  have hpos : 0 < ownersAt hs a0 := ownersAt_pos hsrc hcnt0
  have ha0lt : a0 < heap.blocks.length := Heap.blockAt_lt hblk0
  intro j hd hget a hcnt
  have hji : j ≠ i0 := by
    intro h; subst h; rw [getD_set_self hlen] at hget; cases hget
  rw [getD_set_ne (fun h => hji h.symm)] at hget
  obtain ⟨hptr, blk, hblk, hweak, href⟩ := hinv j hd hget a hcnt
  by_cases hae : a = a0
  · subst hae
    refine ⟨hptr, ⟨blk0.ref - 1, blk0.weak⟩,
      Heap.blockAt_setBlock_self ha0lt, hweak0', ?_⟩
    rw [ownersAt_set _ _ _ _ hlen, hx0, ownerPred_of_cnt hcnt0,
      ownerPred_none]
    simp
    omega
  · refine ⟨hptr, blk, ?_, hweak, ?_⟩
    · rw [Heap.blockAt_setBlock_ne (fun h => hae h.symm)]; exact hblk
    · rw [ownersAt_set _ _ _ _ hlen, hx0,
        ownerPred_false_of_ne (by rw [hcnt0]; exact fun h => hae (Option.some.inj h).symm),
        ownerPred_none]
      simpa using href

/-- Dropping the last owner (the payload and, `weak_count` being zero, the
counter block are freed) preserves the invariant. -/
theorem inv_drop_free {heap : Heap} {hs : List (Option Handle)} {i0 : Nat}
    {hd0 : Handle} {a0 p0 : Nat} {blk0 : Block} (hinv : Inv ⟨heap, hs⟩)
    (hsrc : hs.getD i0 none = some hd0) (hptr0 : hd0.ptr = some p0)
    (hcnt0 : hd0.cnt = some a0) (hblk0 : heap.blockAt a0 = some blk0)
    (hz : blk0.ref - 1 = 0) :
    Inv ⟨((heap.setBlock a0 (some ⟨blk0.ref - 1, blk0.weak⟩)).setPayload p0
        none).setBlock a0 none, hs.set i0 none⟩ := by
  rcases getD_none_iff.mp hsrc with ⟨hlen, hx0⟩
  obtain ⟨_, blk0', hblk0', hweak0, href0⟩ := hinv i0 hd0 hsrc a0 hcnt0
  have hbeq : blk0' = blk0 := Option.some.inj (hblk0'.symm.trans hblk0)
  have href0' : blk0.ref = (ownersAt hs a0 : Int) := hbeq ▸ href0
  intro j hd hget a hcnt
  have hji : j ≠ i0 := by
    intro h; subst h; rw [getD_set_self hlen] at hget; cases hget
  rw [getD_set_ne (fun h => hji h.symm)] at hget
  obtain ⟨hptr, blk, hblk, hweak, href⟩ := hinv j hd hget a hcnt
  by_cases hae : a = a0
  · subst hae
    exfalso
    have h1 : ownersAt hs a = 1 := by omega
    have hget' : (hs.set i0 none).getD j none = some hd := by
      rw [getD_set_ne (fun h => hji h.symm)]; exact hget
    have hpos2 : 0 < ownersAt (hs.set i0 none) a := ownersAt_pos hget' hcnt
    rw [ownersAt_set _ _ _ _ hlen, hx0, ownerPred_of_cnt hcnt0,
      ownerPred_none] at hpos2
    simp at hpos2
    omega
  · refine ⟨hptr, blk, ?_, hweak, ?_⟩
    · rw [Heap.blockAt_setBlock_ne (fun h => hae h.symm),
        Heap.blockAt_setPayload,
        Heap.blockAt_setBlock_ne (fun h => hae h.symm)]
      exact hblk
    · rw [ownersAt_set _ _ _ _ hlen, hx0,
        ownerPred_false_of_ne (by rw [hcnt0]; exact fun h => hae (Option.some.inj h).symm),
        ownerPred_none]
      simpa using href

theorem inv_init : Inv initState := by
  intro i hd hget a hcnt
  exact absurd hget (by simp [initState, List.getD])

theorem execOp_construct (s : MState) (v : Int) :
    execOp s (.construct v) =
      some ⟨(sharedNew (some v) s.heap).2,
        s.handles ++ [some (sharedNew (some v) s.heap).1]⟩ := rfl

theorem execOp_copy (s : MState) (src : Nat) :
    execOp s (.copy src) =
      (s.handles.getD src none).bind fun hd =>
        (sharedCopyCtor hd s.heap).bind fun pr =>
          some ⟨pr.2, s.handles ++ [some pr.1]⟩ := rfl

theorem execOp_move (s : MState) (src : Nat) :
    execOp s (.move src) =
      (s.handles.getD src none).bind fun hd =>
        some ⟨s.heap, (s.handles.set src (some (sharedMoveCtor hd).2)) ++
          [some (sharedMoveCtor hd).1]⟩ := rfl

theorem execOp_drop (s : MState) (i : Nat) :
    execOp s (.drop i) =
      (s.handles.getD i none).bind fun hd =>
        (sharedDtor hd s.heap).bind fun h =>
          some ⟨h, s.handles.set i none⟩ := rfl

theorem run_nil (s : MState) : run [] s = some s := rfl

theorem run_cons (op : Op) (rest : List Op) (s : MState) :
    run (op :: rest) s = (execOp s op).bind fun s1 => run rest s1 := rfl

/-- The destructor equation in the live case. -/
theorem sharedDtor_eq {s : Handle} {p a : Nat} (hp : s.ptr = some p)
    (hc : s.cnt = some a) (h : Heap) :
    sharedDtor s h = (h.blockAt a).bind fun blk =>
      if blk.ref - 1 = 0 then
        ((h.setBlock a (some ⟨blk.ref - 1, blk.weak⟩)).payloadAt p).bind
          fun _ =>
            if blk.weak = 0 then
              some (((h.setBlock a (some ⟨blk.ref - 1,
                blk.weak⟩)).setPayload p none).setBlock a none)
            else
              some ((h.setBlock a (some ⟨blk.ref - 1,
                blk.weak⟩)).setPayload p none)
      else
        some (h.setBlock a (some ⟨blk.ref - 1, blk.weak⟩)) := by
  unfold sharedDtor
  rw [hp, hc]
  rfl

/-- Every Strong Owner operation preserves the machine invariant. -/
theorem exec_inv {s s' : MState} {op : Op} (hinv : Inv s)
    (hexec : execOp s op = some s') : Inv s' := by
  obtain ⟨heap, hs⟩ := s
  cases op with
  | construct v =>
    rw [execOp_construct] at hexec
    cases hexec
    exact inv_construct hinv
  | copy src =>
    rw [execOp_copy] at hexec
    simp only [Option.bind_eq_some, Option.some.injEq] at hexec
    obtain ⟨hd0, hsrc, pair, hcc, heq⟩ := hexec
    obtain ⟨hd2, h2⟩ := pair
    cases heq
    cases hc : hd0.cnt with
    | none =>
      have : sharedCopyCtor hd0 heap = some (⟨hd0.ptr, none⟩, heap) := by
        unfold sharedCopyCtor; rw [hc]
      rw [this] at hcc
      cases hcc
      exact inv_append_none hinv
    | some a0 =>
      have : sharedCopyCtor hd0 heap = (heap.blockAt a0).bind fun blk =>
          some (⟨hd0.ptr, some a0⟩,
            heap.setBlock a0 (some ⟨blk.ref + 1, blk.weak⟩)) := by
        unfold sharedCopyCtor; rw [hc]; rfl
      rw [this] at hcc
      simp only [Option.bind_eq_some, Option.some.injEq] at hcc
      obtain ⟨blk0, hblk0, hcc1⟩ := hcc
      cases hcc1
      exact inv_copy_some hinv hsrc hc hblk0
  | move src =>
    rw [execOp_move] at hexec
    simp only [Option.bind_eq_some, Option.some.injEq] at hexec
    obtain ⟨hd0, hsrc, heq⟩ := hexec
    cases heq
    exact inv_move hinv hsrc
  | drop i =>
    rw [execOp_drop] at hexec
    simp only [Option.bind_eq_some, Option.some.injEq] at hexec
    obtain ⟨hd0, hsrc, h, hdt, heq⟩ := hexec
    cases heq
    cases hc : hd0.cnt with
    | none =>
      have hnoop : sharedDtor hd0 heap = some heap := by
        unfold sharedDtor
        rw [hc]
        cases hd0.ptr <;> rfl
      rw [hnoop] at hdt
      cases hdt
      exact inv_drop_noop hinv hsrc hc
    | some a0 =>
      obtain ⟨hptr0, blk0', hblk0', hweak0, href0⟩ := hinv i hd0 hsrc a0 hc
      cases hp : hd0.ptr with
      | none => exact absurd hp hptr0
      | some p0 =>
        rw [sharedDtor_eq hp hc] at hdt
        have hblk0 : heap.blockAt a0 = some blk0' := hblk0'
        rw [hblk0] at hdt
        simp only [Option.bind_eq_some, Option.some.injEq,
          Option.some_bind] at hdt
        by_cases hz : blk0'.ref - 1 = 0
        · rw [if_pos hz] at hdt
          simp only [Option.bind_eq_some, Option.some.injEq] at hdt
          obtain ⟨v, hv, hif⟩ := hdt
          rw [if_pos hweak0] at hif
          cases hif
          exact inv_drop_free hinv hsrc hp hc hblk0 hz
        · rw [if_neg hz] at hdt
          cases hdt
          exact inv_drop_keep hinv hsrc hc hblk0 hz

/-- The machine invariant holds in every state reachable by a successful
run from the initial state. -/
theorem run_inv {ops : List Op} {S : MState}
    (hrun : run ops initState = some S) : Inv S := by
  suffices h : ∀ ops (s S : MState), Inv s → run ops s = some S → Inv S by
    exact h ops initState S inv_init hrun
  intro ops
  induction ops with
  | nil =>
    intro s S hinv hrun
    rw [run_nil] at hrun
    cases hrun
    exact hinv
  | cons op rest ih =>
    intro s S hinv hrun
    rw [run_cons] at hrun
    simp only [Option.bind_eq_some] at hrun
    obtain ⟨s1, hstep, hrest⟩ := hrun
    exact ih s1 S (exec_inv hinv hstep) hrest

/-! ### The benchmark interleaving machine -/

theorem getD_default_pos {α : Type _} {l : List α} {d : α} {i : Nat} {x : α}
    (h : l.getD i d = x) (hne : x ≠ d) : ∃ hl : i < l.length, l[i] = x := by
  rw [List.getD_eq_getElem?_getD] at h
  cases hl : l[i]? with
  | none =>
    rw [hl] at h
    exact absurd h.symm hne
  | some o =>
    rw [hl] at h
    simp only [Option.getD_some] at h
    subst h
    exact List.getElem?_eq_some.mp hl

theorem threadEvents_zero : threadEvents 0 = [] := rfl

theorem threadEvents_succ (I : Nat) :
    threadEvents (I + 1) = Ev.inc :: Ev.dec :: threadEvents I := by
  simp [threadEvents, List.replicate_succ, List.flatten_cons]

theorem threadEvents_length (I : Nat) : (threadEvents I).length = 2 * I := by
  induction I with
  | zero => rfl
  | succ n ih =>
    rw [threadEvents_succ]
    simp [ih]
    omega

theorem wfTail_threadEvents (I : Nat) : WfTail (threadEvents I) := by
  induction I with
  | zero => exact WfTail.nil
  | succ n ih =>
    rw [threadEvents_succ]
    exact WfTail.iter ih (by rw [threadEvents_length]; omega)

/-- Well-formed tails have the parity their head dictates. -/
theorem wfTail_length_even {l : List Ev} (h : WfTail l)
    (hh : ∀ l', l ≠ Ev.dec :: l') : l.length % 2 = 0 := by
  cases h with
  | nil => rfl
  | iter h he => simp; omega
  | pend h he => exact absurd rfl (hh _)

/-- One benchmark step preserves the benchmark invariant. -/
theorem benchStep_inv {s t : Int × List (List Ev)} (hinv : BenchInv s)
    (hstep : BenchStep s t) : BenchInv t := by
  obtain ⟨hwf, hc⟩ := hinv
  cases hstep with
  | inc c rem th rest hget hpos =>
    obtain ⟨hth, hel⟩ := getD_default_pos hget (by simp)
    have hwfold : WfTail (Ev.inc :: rest) := by
      rw [← hel]; exact hwf _ (List.getElem_mem hth)
    obtain ⟨l, hl, he, hrest⟩ :
        ∃ l, WfTail l ∧ l.length % 2 = 0 ∧ rest = Ev.dec :: l := by
      cases hwfold with
      | iter h he => exact ⟨_, h, he, rfl⟩
    subst hrest
    constructor
    · intro l' hl'
      rcases List.mem_or_eq_of_mem_set hl' with hmem | hx
      · exact hwf _ hmem
      · subst hx; exact WfTail.pend hl he
    · show c + 1 = 1 + (outstanding (rem.set th (Ev.dec :: l)) : Int)
      have hc' : c = 1 + (outstanding rem : Int) := hc
      have hcount : outstanding (rem.set th (Ev.dec :: l)) =
          outstanding rem + 1 := by
        rw [outstanding, List.countP_set _ _ _ _ hth, hel]
        have h1 : ((Ev.inc :: Ev.dec :: l).length % 2 == 1) = false := by
          simp only [List.length_cons, beq_eq_false_iff_ne]
          omega
        have h2 : ((Ev.dec :: l).length % 2 == 1) = true := by
          simp only [List.length_cons, beq_iff_eq]
          omega
        rw [h1, h2]
        simp [outstanding]
      rw [hcount]
      omega
  | dec c rem th rest hget =>
    obtain ⟨hth, hel⟩ := getD_default_pos hget (by simp)
    have hwfold : WfTail (Ev.dec :: rest) := by
      rw [← hel]; exact hwf _ (List.getElem_mem hth)
    obtain ⟨hl, he⟩ : WfTail rest ∧ rest.length % 2 = 0 := by
      cases hwfold with
      | pend h he => exact ⟨h, he⟩
    constructor
    · intro l' hl'
      rcases List.mem_or_eq_of_mem_set hl' with hmem | hx
      · exact hwf _ hmem
      · subst hx; exact hl
    · show c - 1 = 1 + (outstanding (rem.set th rest) : Int)
      have hc' : c = 1 + (outstanding rem : Int) := hc
      have hpos : 0 < outstanding rem := by
        rw [outstanding, List.countP_pos_iff]
        refine ⟨Ev.dec :: rest, by rw [← hel]; exact List.getElem_mem hth, ?_⟩
        simp only [List.length_cons, beq_iff_eq]
        omega
      have hcount : outstanding (rem.set th rest) = outstanding rem - 1 := by
        rw [outstanding, List.countP_set _ _ _ _ hth, hel]
        have h1 : ((Ev.dec :: rest).length % 2 == 1) = true := by
          simp only [List.length_cons, beq_iff_eq]
          omega
        have h2 : ((rest.length % 2 == 1) : Bool) = false := by
          simp only [beq_eq_false_iff_ne]
          omega
        rw [h1, h2]
        simp [outstanding]
      rw [hcount]
      omega

/-- The benchmark invariant holds in every reachable state. -/
theorem benchReach_inv {s t : Int × List (List Ev)} (hinv : BenchInv s)
    (hreach : BenchReach s t) : BenchInv t := by
  induction hreach with
  | refl => exact hinv
  | tail hreach hstep ih => exact benchStep_inv ih hstep

/-- The initial benchmark state satisfies the invariant. -/
theorem benchInv_init (T I : Nat) :
    BenchInv (1, List.replicate T (threadEvents I)) := by
  constructor
  · intro l hl
    rw [List.eq_of_mem_replicate hl]
    exact wfTail_threadEvents I
  · show (1 : Int) = 1 + (outstanding (List.replicate T (threadEvents I)) : Int)
    have : outstanding (List.replicate T (threadEvents I)) = 0 := by
      rw [outstanding, List.countP_replicate]
      have : ((threadEvents I).length % 2 == 1) = false := by
        rw [threadEvents_length]
        simp only [beq_eq_false_iff_ne]
        omega
      rw [this]
      rfl
    rw [this]
    simp

theorem outstanding_all_nil {rem : List (List Ev)}
    (h : ∀ l ∈ rem, l = []) : outstanding rem = 0 := by
  rw [outstanding, List.countP_eq_zero]
  intro l hl
  rw [h l hl]
  simp

/-- The `lock()` equation for an observer with a non-null counter pointer. -/
theorem lock_eq_some {w : Handle} {a : Nat} (hw : w.cnt = some a) (h : Heap) :
    lock w h = (h.blockAt a).bind fun blk =>
      if 0 < blk.ref then
        some (⟨w.ptr, some a⟩, h.setBlock a (some ⟨blk.ref + 1, blk.weak⟩))
      else some (sharedNew none h) := by
  unfold lock
  rw [hw]
  rfl

/-- The `use_count` equation for a handle with a non-null counter pointer. -/
theorem use_count_eq_some {s : Handle} {a : Nat} (hs : s.cnt = some a)
    (h : Heap) :
    use_count s h = (h.blockAt a).bind fun blk => some blk.ref := by
  unfold use_count
  rw [hs]
  rfl

/-! ### Claim theorems -/

/-- C7: Copy-assigning a Strong Owner or a Weak Observer to itself — the
case in which the `this != &other` identity check of `operator=` fires — is
a no-op: the handle keeps its payload pointer and counter-block pointer and
the heap (hence `strong_count` and `weak_count`) is unchanged. -/
theorem self_assignment_noop (d : Handle) (h : Heap) :
    sharedAssign true d d h = some (d, h) ∧
    weakAssign true d d h = some (d, h) :=
  ⟨rfl, rfl⟩

/-- C10: Destroying a Strong Owner whose payload pointer is null (a
default-constructed or moved-from handle, or the result of a failed
`lock()`) performs no counter decrement and frees nothing: the heap — both
counters of any referenced block, the payloads, and the blocks — is
returned unchanged. -/
theorem null_owner_dtor_noop (s : Handle) (h : Heap) (hnull : s.ptr = none) :
    sharedDtor s h = some h := by
  unfold sharedDtor
  rw [hnull]
  cases s.cnt <;> rfl

/-- Witness for C10 on a handle that references a live counter block. -/
theorem null_owner_dtor_noop_witness :
    sharedDtor ⟨none, some 0⟩ ⟨[some 5], [some ⟨1, 0⟩]⟩ =
      some ⟨[some 5], [some ⟨1, 0⟩]⟩ :=
  null_owner_dtor_noop ⟨none, some 0⟩ ⟨[some 5], [some ⟨1, 0⟩]⟩ rfl

/-- C9: A default-constructed Strong Owner, and likewise the empty Strong
Owner returned by a failed `lock()`, holds a null payload pointer (its
boolean test is false) yet owns a freshly allocated counter block with
`strong_count = 1` and `weak_count = 0`, so its `use_count()` returns 1 and
its `expired()` returns false. -/
theorem empty_owner_counter_shape (h : Heap) {w : Handle} {a : Nat}
    {blk : Block} (hw : w.cnt = some a) (hblk : h.blockAt a = some blk)
    (hz : blk.ref = 0) :
    (sharedNew none h).1.ptr = none ∧
    toBool (sharedNew none h).1 = false ∧
    use_count (sharedNew none h).1 (sharedNew none h).2 = some 1 ∧
    expired (sharedNew none h).1 (sharedNew none h).2 = some false ∧
    (sharedNew none h).2.blockAt h.blocks.length = some ⟨1, 0⟩ ∧
    lock w h = some (sharedNew none h) := by
  refine ⟨rfl, rfl, ?_, ?_, ?_, ?_⟩
  · show use_count ⟨none, some h.blocks.length⟩
      ⟨h.payloads, h.blocks ++ [some ⟨1, 0⟩]⟩ = some 1
    unfold use_count
    show ((h.blocks ++ [some (⟨1, 0⟩ : Block)]).getD h.blocks.length
      none).bind (fun blk => some blk.ref) = some 1
    rw [getD_concat_self]
    rfl
  · show expired ⟨none, some h.blocks.length⟩
      ⟨h.payloads, h.blocks ++ [some ⟨1, 0⟩]⟩ = some false
    unfold expired use_count
    show (((h.blocks ++ [some (⟨1, 0⟩ : Block)]).getD h.blocks.length
      none).bind (fun blk => some blk.ref)).map (fun c => c == 0) = some false
    rw [getD_concat_self]
    rfl
  · show (h.blocks ++ [some (⟨1, 0⟩ : Block)]).getD h.blocks.length none =
      some ⟨1, 0⟩
    exact getD_concat_self
  · rw [lock_eq_some hw, hblk, Option.some_bind,
      if_neg (by rw [hz]; exact lt_irrefl 0)]

/-- Witness for C9: a failed lock on an expired observer (counter block
with `strong_count = 0`, `weak_count = 1`). -/
theorem empty_owner_counter_shape_witness :
    use_count (sharedNew none ⟨[none], [some ⟨0, 1⟩]⟩).1
        (sharedNew none ⟨[none], [some ⟨0, 1⟩]⟩).2 = some 1 ∧
    lock ⟨some 0, some 0⟩ ⟨[none], [some ⟨0, 1⟩]⟩ =
      some (sharedNew none ⟨[none], [some ⟨0, 1⟩]⟩) :=
  ⟨(empty_owner_counter_shape ⟨[none], [some ⟨0, 1⟩]⟩
      (w := ⟨some 0, some 0⟩) rfl rfl rfl).2.2.1,
   (empty_owner_counter_shape ⟨[none], [some ⟨0, 1⟩]⟩
      (w := ⟨some 0, some 0⟩) rfl rfl rfl).2.2.2.2.2⟩

/-- C4: After the last Strong Owner referencing a Payload was dropped (the
block's `strong_count` is 0), every `lock()` from any Weak Observer of that
block is a defined operation returning an empty/absent Strong Owner — never
undefined behaviour or an exception — and `expired()` on the observer
returns true. -/
theorem lock_after_last_owner_empty {w : Handle} {h : Heap} {a : Nat}
    {blk : Block} (hw : w.cnt = some a) (hblk : h.blockAt a = some blk)
    (hz : blk.ref = 0) :
    ∃ res h', lock w h = some (res, h') ∧ res.ptr = none ∧
      toBool res = false ∧ expired w h = some true := by
  refine ⟨(sharedNew none h).1, (sharedNew none h).2, ?_, rfl, rfl, ?_⟩
  · rw [lock_eq_some hw, hblk, Option.some_bind,
      if_neg (by rw [hz]; exact lt_irrefl 0)]
  · unfold expired
    rw [use_count_eq_some hw, hblk, Option.some_bind, Option.map_some', hz]
    rfl

/-- Witness for C4: the literal scenario after the owner of 42 is dropped. -/
theorem lock_after_last_owner_empty_witness :
    ∃ res h', lock ⟨some 0, some 0⟩ ⟨[none], [some ⟨0, 1⟩]⟩ =
      some (res, h') ∧ res.ptr = none ∧ toBool res = false ∧
      expired ⟨some 0, some 0⟩ ⟨[none], [some ⟨0, 1⟩]⟩ = some true :=
  lock_after_last_owner_empty (w := ⟨some 0, some 0⟩)
    (h := ⟨[none], [some ⟨0, 1⟩]⟩) rfl rfl rfl

/-- C1: `lock()` on a Weak Observer whose Payload is alive (the block's
`strong_count` is positive and the payload cell holds `v`) succeeds and
returns a Strong Owner aliasing the same payload and block; dereferencing it
yields the original value, `use_count()` after the lock is one greater than
the count before it (on the locked handle and on any owner of the block),
and dropping the locked temporary brings `use_count()` back and leaves the
payload alive. -/
theorem lock_on_live_payload_succeeds {w : Handle} {h : Heap} {a p : Nat}
    {blk : Block} {v : Int} (hw : w.cnt = some a) (hp : w.ptr = some p)
    (hblk : h.blockAt a = some blk) (hpos : 0 < blk.ref)
    (hpay : h.payloadAt p = some v) :
    ∃ locked h', lock w h = some (locked, h') ∧
      locked = ⟨some p, some a⟩ ∧
      use_count w h = some blk.ref ∧
      deref locked h' = some v ∧
      use_count locked h' = some (blk.ref + 1) ∧
      ∃ h'', sharedDtor locked h' = some h'' ∧
        use_count w h'' = some blk.ref ∧
        h''.payloadAt p = some v := by
  have halt : a < h.blocks.length := Heap.blockAt_lt hblk
  refine ⟨⟨some p, some a⟩,
    h.setBlock a (some ⟨blk.ref + 1, blk.weak⟩), ?_, rfl, ?_, ?_, ?_, ?_⟩
  · rw [lock_eq_some hw, hblk, Option.some_bind, if_pos hpos, hp]
  · rw [use_count_eq_some hw, hblk]
    rfl
  · show (h.setBlock a (some ⟨blk.ref + 1, blk.weak⟩)).payloadAt p = some v
    rw [Heap.payloadAt_setBlock]
    exact hpay
  · rw [use_count_eq_some (s := ⟨some p, some a⟩) rfl,
      Heap.blockAt_setBlock_self halt]
    rfl
  · refine ⟨(h.setBlock a (some ⟨blk.ref + 1, blk.weak⟩)).setBlock a
      (some ⟨blk.ref + 1 - 1, blk.weak⟩), ?_, ?_, ?_⟩
    · rw [sharedDtor_eq (s := ⟨some p, some a⟩) rfl rfl,
        Heap.blockAt_setBlock_self halt, Option.some_bind,
        if_neg (show ¬(blk.ref + 1 - 1 = 0) by omega)]
    · rw [use_count_eq_some hw, Heap.blockAt_setBlock_self
        (by rw [Heap.setBlock, List.length_set]; exact halt),
        Option.some_bind]
      show some (blk.ref + 1 - 1) = some blk.ref
      congr 1
      omega
    · rw [Heap.payloadAt_setBlock, Heap.payloadAt_setBlock]
      exact hpay

/-- Witness for C1: the literal scenario — owner of 42, one observer,
`lock()` succeeds with value 42, counts go 1 → 2 → 1. -/
theorem lock_on_live_payload_succeeds_witness :
    ∃ locked h', lock ⟨some 0, some 0⟩ ⟨[some 42], [some ⟨1, 1⟩]⟩ =
        some (locked, h') ∧
      locked = ⟨some 0, some 0⟩ ∧
      use_count ⟨some 0, some 0⟩ ⟨[some 42], [some ⟨1, 1⟩]⟩ = some 1 ∧
      deref locked h' = some 42 ∧
      use_count locked h' = some 2 ∧
      ∃ h'', sharedDtor locked h' = some h'' ∧
        use_count ⟨some 0, some 0⟩ h'' = some 1 ∧
        h''.payloadAt 0 = some 42 :=
  lock_on_live_payload_succeeds (w := ⟨some 0, some 0⟩)
    (h := ⟨[some 42], [some ⟨1, 1⟩]⟩) rfl rfl rfl (by decide) rfl

/-- The weak destructor equation for a non-null counter pointer. -/
theorem weakDtor_eq {w : Handle} {a : Nat} (hc : w.cnt = some a) (h : Heap) :
    weakDtor w h = (h.blockAt a).bind fun blk =>
      if blk.weak - 1 = 0 ∧ blk.ref = 0 then
        some ((h.setBlock a (some ⟨blk.ref, blk.weak - 1⟩)).setBlock a none)
      else some (h.setBlock a (some ⟨blk.ref, blk.weak - 1⟩)) := by
  unfold weakDtor
  rw [hc]
  rfl

/-- Setting a payload cell to `none` makes reading it return `none`. -/
theorem Heap.payloadAt_setPayload_self (h : Heap) (p : Nat) :
    (h.setPayload p none).payloadAt p = none := by
  by_cases hp : p < h.payloads.length
  · exact getD_set_self hp
  · cases hval : (h.setPayload p none).payloadAt p with
    | none => rfl
    | some x =>
      obtain ⟨hlt, _⟩ := getD_none_iff.mp hval
      rw [Heap.setPayload] at hlt
      simp only [List.length_set] at hlt
      exact absurd hlt hp

/-- On a handle whose payload pointer is non-null, the release path of the
copy assignment operator performs exactly the destructor's protocol. -/
theorem sharedAssignRelease_eq_dtor {s : Handle} {p : Nat}
    (hp : s.ptr = some p) (h : Heap) :
    sharedAssignRelease s h = sharedDtor s h := by
  cases hc : s.cnt with
  | none =>
    unfold sharedAssignRelease sharedDtor
    rw [hp, hc]
  | some a =>
    rw [sharedDtor_eq hp hc]
    unfold sharedAssignRelease
    rw [hc, hp]
    rfl

/-- C3: the Payload is destroyed precisely at the `strong_count` 1 → 0
transition of the owner destructor (whose protocol the copy-assignment
release path repeats verbatim), and the counter block is destroyed
precisely when the decrement that brought one count to zero observes the
other count already zero — by the strong-side destructor when
`weak_count = 0`, or by the weak-side destructor when `strong_count = 0`. -/
theorem destruction_points_precise {s w : Handle} {h : Heap} {a p aw : Nat}
    {blk blkw : Block} {h' hw' : Heap}
    (hp : s.ptr = some p) (hc : s.cnt = some a)
    (hblk : h.blockAt a = some blk) (hdt : sharedDtor s h = some h')
    (hwc : w.cnt = some aw) (hwblk : h.blockAt aw = some blkw)
    (hwdt : weakDtor w h = some hw') :
    ((h'.payloadAt p = none ∧ h.payloadAt p ≠ none) ↔ blk.ref = 1) ∧
    (h'.blockAt a = none ↔ blk.ref = 1 ∧ blk.weak = 0) ∧
    (blk.ref = 1 → h'.blockAt a = none ∨ h'.blockAt a = some ⟨0, blk.weak⟩) ∧
    sharedAssignRelease s h = sharedDtor s h ∧
    (hw'.blockAt aw = none ↔ blkw.weak = 1 ∧ blkw.ref = 0) := by
  have halt : a < h.blocks.length := Heap.blockAt_lt hblk
  have hawlt : aw < h.blocks.length := Heap.blockAt_lt hwblk
  rw [sharedDtor_eq hp hc, hblk, Option.some_bind] at hdt
  rw [weakDtor_eq hwc, hwblk, Option.some_bind] at hwdt
  have hwpart : hw'.blockAt aw = none ↔ blkw.weak = 1 ∧ blkw.ref = 0 := by
    by_cases hcond : blkw.weak - 1 = 0 ∧ blkw.ref = 0
    · rw [if_pos hcond] at hwdt
      cases hwdt
      rw [Heap.blockAt_setBlock_self
        (by rw [Heap.setBlock, List.length_set]; exact hawlt)]
      exact ⟨fun _ => ⟨by omega, hcond.2⟩, fun _ => rfl⟩
    · rw [if_neg hcond] at hwdt
      cases hwdt
      rw [Heap.blockAt_setBlock_self hawlt]
      constructor
      · intro hx; cases hx
      · rintro ⟨hw1, hr0⟩
        exact absurd ⟨by omega, hr0⟩ hcond
  by_cases hz : blk.ref - 1 = 0
  · rw [if_pos hz] at hdt
    simp only [Option.bind_eq_some] at hdt
    obtain ⟨v, hv, hif⟩ := hdt
    rw [Heap.payloadAt_setBlock] at hv
    by_cases hwz : blk.weak = 0
    · rw [if_pos hwz] at hif
      cases hif
      refine ⟨?_, ?_, fun _ => Or.inl ?_, sharedAssignRelease_eq_dtor hp h,
        hwpart⟩
      · constructor
        · intro _; omega
        · intro _
          exact ⟨by rw [Heap.payloadAt_setBlock,
              Heap.payloadAt_setPayload_self], by rw [hv]; simp⟩
      · rw [Heap.blockAt_setBlock_self (by
          rw [Heap.setPayload, Heap.setBlock]
          simp only [List.length_set]
          exact halt)]
        exact ⟨fun _ => ⟨by omega, hwz⟩, fun _ => rfl⟩
      · rw [Heap.blockAt_setBlock_self (by
          rw [Heap.setPayload, Heap.setBlock]
          simp only [List.length_set]
          exact halt)]
    · rw [if_neg hwz] at hif
      cases hif
      refine ⟨?_, ?_, fun _ => Or.inr ?_, sharedAssignRelease_eq_dtor hp h,
        hwpart⟩
      · constructor
        · intro _; omega
        · intro _
          exact ⟨by rw [Heap.payloadAt_setPayload_self], by rw [hv]; simp⟩
      · rw [Heap.blockAt_setPayload, Heap.blockAt_setBlock_self halt]
        constructor
        · intro hx; cases hx
        · rintro ⟨_, hw0⟩; exact absurd hw0 hwz
      · rw [Heap.blockAt_setPayload, Heap.blockAt_setBlock_self halt, hz]
  · rw [if_neg hz] at hdt
    cases hdt
    refine ⟨?_, ?_, fun h1 => absurd (by omega : blk.ref - 1 = 0) hz,
      sharedAssignRelease_eq_dtor hp h, hwpart⟩
    · constructor
      · rintro ⟨h1, h2⟩
        rw [Heap.payloadAt_setBlock] at h1
        exact absurd h1 h2
      · intro h1; exact absurd (by omega : blk.ref - 1 = 0) hz
    · rw [Heap.blockAt_setBlock_self halt]
      constructor
      · intro hx; cases hx
      · rintro ⟨h1, _⟩; exact absurd (by omega : blk.ref - 1 = 0) hz

/-- Witness for C3: one block with its last owner (payload 3, counts
(1,0)), one block with its last observer (counts (0,1)). -/
theorem destruction_points_precise_witness :
    ((Heap.payloadAt ⟨[none, none], [none, some ⟨0, 1⟩]⟩ 0 = none ∧
        Heap.payloadAt ⟨[some 3, none], [some ⟨1, 0⟩, some ⟨0, 1⟩]⟩ 0 ≠ none) ↔
      (1 : Int) = 1) ∧
    (Heap.blockAt ⟨[none, none], [none, some ⟨0, 1⟩]⟩ 0 = none ↔
      (1 : Int) = 1 ∧ (0 : Int) = 0) ∧
    ((1 : Int) = 1 →
      Heap.blockAt ⟨[none, none], [none, some ⟨0, 1⟩]⟩ 0 = none ∨
      Heap.blockAt ⟨[none, none], [none, some ⟨0, 1⟩]⟩ 0 = some ⟨0, 0⟩) ∧
    sharedAssignRelease ⟨some 0, some 0⟩
        ⟨[some 3, none], [some ⟨1, 0⟩, some ⟨0, 1⟩]⟩ =
      sharedDtor ⟨some 0, some 0⟩
        ⟨[some 3, none], [some ⟨1, 0⟩, some ⟨0, 1⟩]⟩ ∧
    (Heap.blockAt ⟨[some 3, none], [some ⟨1, 0⟩, none]⟩ 1 = none ↔
      (1 : Int) = 1 ∧ (0 : Int) = 0) :=
  destruction_points_precise (s := ⟨some 0, some 0⟩) (w := ⟨none, some 1⟩)
    (h := ⟨[some 3, none], [some ⟨1, 0⟩, some ⟨0, 1⟩]⟩)
    rfl rfl rfl (by decide) rfl rfl (by decide)

/-- C6 counterexample: `CustomWeakPtr` declares no move operations, so
"move-constructing" a Weak Observer selects the copy constructor.  In the
state with one owner of 5 and one observer (block counters (1, 1)),
move-constructing from the observer changes `weak_count` from 1 to 2
(so the atomic counters are NOT left untouched) and leaves the source
handle still holding its pointers (NOT empty/inert), contradicting the
claim as stated. -/
theorem weak_move_changes_counter :
    weakMoveCtor ⟨some 0, some 0⟩ ⟨[some 5], [some ⟨1, 1⟩]⟩ =
      some (⟨some 0, some 0⟩, ⟨some 0, some 0⟩,
        ⟨[some 5], [some ⟨1, 2⟩]⟩) ∧
    Heap.blockAt ⟨[some 5], [some ⟨1, 2⟩]⟩ 0 ≠
      Heap.blockAt ⟨[some 5], [some ⟨1, 1⟩]⟩ 0 ∧
    (⟨some 0, some 0⟩ : Handle) ≠ ⟨none, none⟩ := by
  refine ⟨rfl, ?_, ?_⟩ <;> decide

/-- C6 amended: only the Strong Owner move CONSTRUCTOR transfers the
(payload, counter-block) pair without touching the counters and leaves the
source inert (its later destruction is a no-op).  The Weak Observer
declares no move operations and the Strong Owner no move assignment, so
those expressions resolve to the copy operations, which adjust the
counters and leave the source handle unchanged: a Weak Observer "move"
construction increments `weak_count`; a Strong Owner "move" assignment
runs the copy assignment — it decrements the target's old block's
`strong_count` and increments the adopted block's `strong_count`; a Weak
Observer "move" assignment likewise decrements the old block's
`weak_count` and increments the adopted block's `weak_count`.  (The
generic case is stated: distinct blocks, neither decrement reaching the
freeing condition.) -/
theorem move_semantics_amended (s : Handle) (h : Heap) :
    (sharedMoveCtor s = (⟨s.ptr, s.cnt⟩, ⟨none, none⟩) ∧
     sharedDtor (sharedMoveCtor s).2 h = some h) ∧
    (∀ w a blk, w.cnt = some a → h.blockAt a = some blk →
      weakMoveCtor w h = some (⟨w.ptr, some a⟩, w,
        h.setBlock a (some ⟨blk.ref, blk.weak + 1⟩))) ∧
    (∀ dst src : Handle, ∀ pd ad as : Nat, ∀ blkd blks : Block,
      dst.ptr = some pd → dst.cnt = some ad → src.cnt = some as →
      ad ≠ as → h.blockAt ad = some blkd → h.blockAt as = some blks →
      blkd.ref - 1 ≠ 0 →
      sharedMoveAssign dst src h = some (⟨src.ptr, some as⟩, src,
        (h.setBlock ad (some ⟨blkd.ref - 1, blkd.weak⟩)).setBlock as
          (some ⟨blks.ref + 1, blks.weak⟩))) ∧
    (∀ dst src : Handle, ∀ ad as : Nat, ∀ blkd blks : Block,
      dst.cnt = some ad → src.cnt = some as →
      ad ≠ as → h.blockAt ad = some blkd → h.blockAt as = some blks →
      ¬(blkd.weak - 1 = 0 ∧ blkd.ref = 0) →
      weakMoveAssign dst src h = some (⟨src.ptr, some as⟩, src,
        (h.setBlock ad (some ⟨blkd.ref, blkd.weak - 1⟩)).setBlock as
          (some ⟨blks.ref, blks.weak + 1⟩))) := by
  refine ⟨⟨rfl, rfl⟩, ?_, ?_, ?_⟩
  · intro w a blk hw hblk
    have hmeq : weakMoveCtor w h =
        (weakFromShared w h).bind fun pr => some (pr.1, w, pr.2) := rfl
    have hfs : weakFromShared w h = (h.blockAt a).bind fun blk =>
        some (⟨w.ptr, some a⟩,
          h.setBlock a (some ⟨blk.ref, blk.weak + 1⟩)) := by
      unfold weakFromShared
      rw [hw]
      rfl
    rw [hmeq, hfs, hblk, Option.some_bind, Option.some_bind]
  · intro dst src pd ad as blkd blks hdp hdc hsc hne hbd hbs hrz
    have hrel : sharedAssignRelease dst h =
        some (h.setBlock ad (some ⟨blkd.ref - 1, blkd.weak⟩)) := by
      rw [sharedAssignRelease_eq_dtor hdp, sharedDtor_eq hdp hdc, hbd,
        Option.some_bind, if_neg hrz]
    have haeq : sharedMoveAssign dst src h =
        (sharedAssign false dst src h).bind fun pr =>
          some (pr.1, src, pr.2) := rfl
    have hassign : sharedAssign false dst src h =
        some (⟨src.ptr, some as⟩,
          (h.setBlock ad (some ⟨blkd.ref - 1, blkd.weak⟩)).setBlock as
            (some ⟨blks.ref + 1, blks.weak⟩)) := by
      show (sharedAssignRelease dst h).bind _ = _
      rw [hrel, Option.some_bind, hsc]
      show ((h.setBlock ad (some ⟨blkd.ref - 1,
          blkd.weak⟩)).blockAt as).bind _ = _
      rw [Heap.blockAt_setBlock_ne hne, hbs, Option.some_bind]
      rfl
    rw [haeq, hassign, Option.some_bind]
  · intro dst src ad as blkd blks hdc hsc hne hbd hbs hcond
    have hrel : weakAssignRelease dst h =
        some (h.setBlock ad (some ⟨blkd.ref, blkd.weak - 1⟩)) := by
      show weakDtor dst h = _
      rw [weakDtor_eq hdc, hbd, Option.some_bind, if_neg hcond]
    have haeq : weakMoveAssign dst src h =
        (weakAssign false dst src h).bind fun pr =>
          some (pr.1, src, pr.2) := rfl
    have hassign : weakAssign false dst src h =
        some (⟨src.ptr, some as⟩,
          (h.setBlock ad (some ⟨blkd.ref, blkd.weak - 1⟩)).setBlock as
            (some ⟨blks.ref, blks.weak + 1⟩)) := by
      show (weakAssignRelease dst h).bind _ = _
      rw [hrel, Option.some_bind, hsc]
      show ((h.setBlock ad (some ⟨blkd.ref,
          blkd.weak - 1⟩)).blockAt as).bind _ = _
      rw [Heap.blockAt_setBlock_ne hne, hbs, Option.some_bind]
      rfl
    rw [haeq, hassign, Option.some_bind]

/-- Witness for the amended C6: the weak "move" construction on the
literal one-block state, the inertness of a moved-from owner, and both
"move" assignments on a two-block state — the old block's count drops, the
adopted block's count rises, the source keeps its pointers. -/
theorem move_semantics_amended_witness :
    weakMoveCtor ⟨some 0, some 0⟩ ⟨[some 5], [some ⟨1, 1⟩]⟩ =
      some (⟨some 0, some 0⟩, ⟨some 0, some 0⟩,
        Heap.setBlock ⟨[some 5], [some ⟨1, 1⟩]⟩ 0 (some ⟨1, 1 + 1⟩)) ∧
    sharedDtor (sharedMoveCtor ⟨some 0, some 0⟩).2
      ⟨[some 5], [some ⟨1, 1⟩]⟩ = some ⟨[some 5], [some ⟨1, 1⟩]⟩ ∧
    sharedMoveAssign ⟨some 0, some 0⟩ ⟨some 1, some 1⟩
        ⟨[some 5, some 6], [some ⟨2, 1⟩, some ⟨1, 1⟩]⟩ =
      some (⟨some 1, some 1⟩, ⟨some 1, some 1⟩,
        (Heap.setBlock ⟨[some 5, some 6], [some ⟨2, 1⟩, some ⟨1, 1⟩]⟩ 0
          (some ⟨2 - 1, 1⟩)).setBlock 1 (some ⟨1 + 1, 1⟩)) ∧
    weakMoveAssign ⟨some 0, some 0⟩ ⟨some 1, some 1⟩
        ⟨[some 5, some 6], [some ⟨2, 1⟩, some ⟨1, 1⟩]⟩ =
      some (⟨some 1, some 1⟩, ⟨some 1, some 1⟩,
        (Heap.setBlock ⟨[some 5, some 6], [some ⟨2, 1⟩, some ⟨1, 1⟩]⟩ 0
          (some ⟨2, 1 - 1⟩)).setBlock 1 (some ⟨1, 1 + 1⟩)) :=
  ⟨(move_semantics_amended ⟨some 0, some 0⟩ ⟨[some 5], [some ⟨1, 1⟩]⟩).2.1
      ⟨some 0, some 0⟩ 0 ⟨1, 1⟩ rfl rfl,
   (move_semantics_amended ⟨some 0, some 0⟩ ⟨[some 5], [some ⟨1, 1⟩]⟩).1.2,
   (move_semantics_amended ⟨none, none⟩
      ⟨[some 5, some 6], [some ⟨2, 1⟩, some ⟨1, 1⟩]⟩).2.2.1
      ⟨some 0, some 0⟩ ⟨some 1, some 1⟩ 0 0 1 ⟨2, 1⟩ ⟨1, 1⟩
      rfl rfl rfl (by decide) rfl rfl (by decide),
   (move_semantics_amended ⟨none, none⟩
      ⟨[some 5, some 6], [some ⟨2, 1⟩, some ⟨1, 1⟩]⟩).2.2.2
      ⟨some 0, some 0⟩ ⟨some 1, some 1⟩ 0 1 ⟨2, 1⟩ ⟨1, 1⟩
      rfl rfl (by decide) rfl rfl (by decide)⟩

theorem lockAttempt_nil (e : Int) :
    lockAttempt e [] = if e ≤ 0 then (.failed, []) else (.spin, []) := by
  by_cases he : e ≤ 0 <;> simp [lockAttempt, he]

theorem lockAttempt_cons (e : Int) (st : CasStep) (rest : List CasStep) :
    lockAttempt e (st :: rest) =
      if e ≤ 0 then (.failed, [])
      else if st.atCas = e ∧ ¬ st.spurious then
        (.locked e (e + 1), [(e, e + 1)])
      else lockAttempt st.reload rest := by
  by_cases he : e ≤ 0 <;> simp [lockAttempt, he]

/-- C2: under any interference schedule, one `lock()` CAS loop either
performs exactly one write — a compare-and-swap that increments the counter
by one from a value it saw to be positive — or performs no write at all
(guard failure or still spinning); `strong_count` is never incremented from
zero by the loop.  Moreover, in every machine-reachable state, a counter
block still referenced by a live owner has a positive `strong_count`, so
the plain increment of the copy constructor also never fires on a zero
count: once `strong_count` reaches 0 no handle that could raise it
remains. -/
theorem lock_cas_all_or_nothing :
    (∀ (e : Int) (sched : List CasStep),
      (∃ old : Int, 0 < old ∧
        lockAttempt e sched = (.locked old (old + 1), [(old, old + 1)])) ∨
      ((lockAttempt e sched).2 = [] ∧
        ((lockAttempt e sched).1 = .failed ∨
          (lockAttempt e sched).1 = .spin))) ∧
    (∀ (ops : List Op) (S : MState) (i : Nat) (hd : Handle) (a : Nat),
      run ops initState = some S →
      S.handles.getD i none = some hd → hd.cnt = some a →
      ∃ blk, S.heap.blockAt a = some blk ∧ 0 < blk.ref) := by
  constructor
  · intro e sched
    induction sched generalizing e with
    | nil =>
      rw [lockAttempt_nil]
      by_cases he : e ≤ 0
      · rw [if_pos he]
        exact Or.inr ⟨rfl, Or.inl rfl⟩
      · rw [if_neg he]
        exact Or.inr ⟨rfl, Or.inr rfl⟩
    | cons st rest ih =>
      rw [lockAttempt_cons]
      by_cases he : e ≤ 0
      · rw [if_pos he]
        exact Or.inr ⟨rfl, Or.inl rfl⟩
      · rw [if_neg he]
        by_cases hcas : st.atCas = e ∧ ¬ st.spurious
        · rw [if_pos hcas]
          exact Or.inl ⟨e, by omega, rfl⟩
        · rw [if_neg hcas]
          exact ih st.reload
  · intro ops S i hd a hrun hget hcnt
    obtain ⟨hptr, blk, hblk, hweak, href⟩ := run_inv hrun i hd hget a hcnt
    refine ⟨blk, hblk, ?_⟩
    have hpos := ownersAt_pos hget hcnt
    rw [href]
    exact_mod_cast hpos

/-- Witness for C2: after `construct 7`, the single live owner's block has
a positive count. -/
theorem lock_cas_all_or_nothing_witness :
    ∃ blk, Heap.blockAt ⟨[some 7], [some ⟨1, 0⟩]⟩ 0 = some blk ∧
      0 < blk.ref :=
  lock_cas_all_or_nothing.2 [Op.construct 7]
    ⟨⟨[some 7], [some ⟨1, 0⟩]⟩, [some ⟨some 0, some 0⟩]⟩
    0 ⟨some 0, some 0⟩ 0 rfl rfl rfl

/-- C5: in every state reachable by a sequence of construct / copy / move /
drop operations on Strong Owners, `use_count()` of any live handle equals
the number of currently-live Strong Owner handles aliasing its counter
block; constructing from a raw pointer allocates a fresh block with
`strong_count = 1`, `weak_count = 0`, and copy-construction increments
`strong_count` by one. -/
theorem use_count_equals_live_owners :
    (∀ (ops : List Op) (S : MState), run ops initState = some S →
      ∀ i hd a, S.handles.getD i none = some hd → hd.cnt = some a →
        use_count hd S.heap = some ((ownersAt S.handles a : Nat) : Int)) ∧
    (∀ (v : Int) (h : Heap), sharedNew (some v) h =
      (⟨some h.payloads.length, some h.blocks.length⟩,
        ⟨h.payloads ++ [some v], h.blocks ++ [some ⟨1, 0⟩]⟩)) ∧
    (∀ (s : Handle) (h : Heap) (a : Nat) (blk : Block),
      s.cnt = some a → h.blockAt a = some blk →
      sharedCopyCtor s h = some (⟨s.ptr, some a⟩,
        h.setBlock a (some ⟨blk.ref + 1, blk.weak⟩))) := by
  refine ⟨?_, fun v h => rfl, ?_⟩
  · intro ops S hrun i hd a hget hcnt
    obtain ⟨hptr, blk, hblk, hweak, href⟩ := run_inv hrun i hd hget a hcnt
    rw [use_count_eq_some hcnt, hblk, Option.some_bind, href]
  · intro s h a blk hc hblk
    have heq : sharedCopyCtor s h = (h.blockAt a).bind fun blk =>
        some (⟨s.ptr, some a⟩,
          h.setBlock a (some ⟨blk.ref + 1, blk.weak⟩)) := by
      unfold sharedCopyCtor
      rw [hc]
      rfl
    rw [heq, hblk, Option.some_bind]

/-- Witness for C5: after `construct 7; copy 0` there are two live owners
and `use_count` returns 2. -/
theorem use_count_equals_live_owners_witness :
    use_count ⟨some 0, some 0⟩ (⟨[some 7], [some ⟨2, 0⟩]⟩ : Heap) =
      some ((ownersAt [some ⟨some 0, some 0⟩, some ⟨some 0, some 0⟩] 0 :
        Nat) : Int) :=
  use_count_equals_live_owners.1 [Op.construct 7, Op.copy 0]
    ⟨⟨[some 7], [some ⟨2, 0⟩]⟩,
      [some ⟨some 0, some 0⟩, some ⟨some 0, some 0⟩]⟩
    rfl 0 ⟨some 0, some 0⟩ 0 rfl rfl

/-- C8: with one owner held throughout, for any interleaving of `T`
threads each performing `I` lock/release iterations, the counter stays at
`1 + (number of outstanding locked temporaries)`: after all threads have
finished their events, `use_count()` is exactly 1, and before every pending
release the counter is at least 2, so a temporary's destructor never frees
the payload.  In the drop-versus-lock race, both linearization orders are
safe: if the CAS wins, the upgrade is fully valid and the payload readable
after the owner drops; if the drop wins, `lock()` returns a clean empty
owner. -/
theorem concurrent_lock_safety :
    (∀ (T I : Nat) (c : Int) (rem : List (List Ev)),
      BenchReach (1, List.replicate T (threadEvents I)) (c, rem) →
      (∀ l ∈ rem, l = []) → c = 1) ∧
    (∀ (T I : Nat) (c : Int) (rem : List (List Ev)) (th : Nat)
        (rest : List Ev),
      BenchReach (1, List.replicate T (threadEvents I)) (c, rem) →
      rem.getD th [] = Ev.dec :: rest → 2 ≤ c) ∧
    (lock ⟨some 0, some 0⟩ ⟨[some 42], [some ⟨1, 1⟩]⟩ =
        some (⟨some 0, some 0⟩, ⟨[some 42], [some ⟨2, 1⟩]⟩) ∧
      sharedDtor ⟨some 0, some 0⟩ ⟨[some 42], [some ⟨2, 1⟩]⟩ =
        some ⟨[some 42], [some ⟨1, 1⟩]⟩ ∧
      deref ⟨some 0, some 0⟩ ⟨[some 42], [some ⟨1, 1⟩]⟩ = some 42) ∧
    (sharedDtor ⟨some 0, some 0⟩ ⟨[some 42], [some ⟨1, 1⟩]⟩ =
        some ⟨[none], [some ⟨0, 1⟩]⟩ ∧
      ∃ res h', lock ⟨some 0, some 0⟩ ⟨[none], [some ⟨0, 1⟩]⟩ =
        some (res, h') ∧ res.ptr = none) := by
  refine ⟨?_, ?_, ⟨by decide, by decide, by decide⟩,
    by decide, ⟨none, some 1⟩, ⟨[none], [some ⟨0, 1⟩, some ⟨1, 0⟩]⟩,
    by decide, rfl⟩
  · intro T I c rem hreach hnil
    have hinv := benchReach_inv (benchInv_init T I) hreach
    have hc : c = 1 + (outstanding rem : Int) := hinv.2
    rw [outstanding_all_nil hnil] at hc
    simpa using hc
  · intro T I c rem th rest hreach hget
    have hinv := benchReach_inv (benchInv_init T I) hreach
    have hc : c = 1 + (outstanding rem : Int) := hinv.2
    obtain ⟨hth, hel⟩ := getD_default_pos hget (by simp)
    have hwfold : WfTail (Ev.dec :: rest) := by
      rw [← hel]
      exact hinv.1 _ (List.getElem_mem hth)
    obtain ⟨hl, he⟩ : WfTail rest ∧ rest.length % 2 = 0 := by
      cases hwfold with
      | pend hwf he => exact ⟨hwf, he⟩
    have hpos : 0 < outstanding rem := by
      rw [outstanding, List.countP_pos_iff]
      refine ⟨Ev.dec :: rest, by rw [← hel]; exact List.getElem_mem hth, ?_⟩
      simp only [List.length_cons, beq_iff_eq]
      omega
    omega

/-- Witness for C8: after one thread's successful lock (counter 1 → 2) the
pending release sees a counter of at least 2. -/
theorem concurrent_lock_safety_witness : (2 : Int) ≤ 2 :=
  concurrent_lock_safety.2.1 1 1 2 [[Ev.dec]] 0 []
    (BenchReach.tail (BenchReach.refl _)
      (BenchStep.inc 1 (List.replicate 1 (threadEvents 1)) 0 [Ev.dec]
        rfl (by decide)))
    rfl

end WeakPtrModel
